import Mathlib

/-!
Verification of the batch-renamer core (segment parser, template renderer,
plan builder, conflict resolver, two-phase rename executor).

The Python source is shallowly embedded: strings are Lean `String`s
(operated on through their underlying `List Char`), Python `int` is `Int`,
Python `None`-able dictionary values are `Option String`, the filesystem of
the executor is an association list from path strings to file contents, and
the library calls `Path.match` (glob matching) and
`datetime.fromtimestamp(..).isoformat` are abstracted as function
parameters.  All definitions are fuel-free or fuel-sufficient structural
recursions so that every concrete scenario evaluates by `decide`.
-/

/-! ## Python string primitives (`List Char` level) -/

/-- Characters stripped by Python `str.strip()` with no argument
(ASCII whitespace model). -/
def pySpaceChar (c : Char) : Bool :=
  c = ' ' || c = '\t' || c = '\n' || c = '\r' || c = '\x0b' || c = '\x0c'

/-- `listStarts pat l` is the model of Python `l.startswith(pat)`. -/
def listStarts : List Char → List Char → Bool
  | [], _ => true
  | _ :: _, [] => false
  | p :: ps, c :: cs => p = c && listStarts ps cs

/-- Model of Python `str.strip()` (both ends). -/
def pyStripL (l : List Char) : List Char :=
  ((l.dropWhile pySpaceChar).reverse.dropWhile pySpaceChar).reverse

/-- Model of Python `str.lower()` (ASCII case model, applied per character). -/
def pyLowerL (l : List Char) : List Char := l.map Char.toLower

/-- Model of Python `str.upper()` (ASCII case model). -/
def pyUpperL (l : List Char) : List Char := l.map Char.toUpper

/-- One step of Python `str.title()`: `prev` records whether the previous
character was alphabetic. -/
def pyTitleGo : Bool → List Char → List Char
  | _, [] => []
  | prev, c :: cs =>
    (if c.isAlpha then (if prev then c.toLower else c.toUpper) else c) ::
      pyTitleGo c.isAlpha cs

/-- Model of Python `str.title()` (ASCII model). -/
def pyTitleL (l : List Char) : List Char := pyTitleGo false l

/-- Model of Python `sub in s` (substring containment). -/
def pyContainsL (sub : List Char) : List Char → Bool
  | [] => listStarts sub []
  | c :: cs => listStarts sub (c :: cs) || pyContainsL sub cs

/-- Fuel-driven model of Python `s.split(sep)` for a non-empty separator
`sep`; with fuel `> s.length` it computes exactly Python's split (leftmost,
non-overlapping, keeping empty pieces). -/
def pySplitF (sep : List Char) : Nat → List Char → List (List Char)
  | 0, s => [s]
  | _ + 1, [] => [[]]
  | fuel + 1, c :: cs =>
    if sep ≠ [] ∧ listStarts sep (c :: cs) then
      [] :: pySplitF sep fuel ((c :: cs).drop sep.length)
    else
      match pySplitF sep fuel cs with
      | [] => [[c]]
      | h :: t => (c :: h) :: t

/-- Model of Python `sep.join(parts)`. -/
def pyJoinL (sep : List Char) : List (List Char) → List Char
  | [] => []
  | [x] => x
  | x :: y :: t => x ++ sep ++ pyJoinL sep (y :: t)

theorem pySplitF_ne_nil (sep : List Char) (fuel : Nat) (s : List Char) :
    pySplitF sep fuel s ≠ [] := by
  cases fuel with
  | zero => simp [pySplitF]
  | succ f =>
    cases s with
    | nil => simp [pySplitF]
    | cons c cs =>
      rw [pySplitF]
      split
      · simp
      · rcases h : pySplitF sep f cs with _ | ⟨h1, t1⟩ <;> simp

theorem listStarts_eq_isPrefix (p l : List Char) :
    listStarts p l = true ↔ p <+: l := by
  induction p generalizing l with
  | nil => simp [listStarts]
  | cons a ps ih =>
    cases l with
    | nil => simp [listStarts]
    | cons c cs =>
      simp only [listStarts, Bool.and_eq_true, decide_eq_true_eq, ih,
        List.cons_prefix_cons]

/-- Fuel-sufficient split followed by join restores the original string. -/
theorem pyJoin_pySplitF (sep : List Char) (fuel : Nat) (s : List Char)
    (h : s.length < fuel) : pyJoinL sep (pySplitF sep fuel s) = s := by
  induction fuel generalizing s with
  | zero => omega
  | succ fuel ih =>
    match s with
    | [] => simp [pySplitF, pyJoinL]
    | c :: cs =>
      rw [pySplitF]
      split
      · rename_i hcond
        obtain ⟨hne, hpre⟩ := hcond
        rw [listStarts_eq_isPrefix] at hpre
        obtain ⟨rest, hrest⟩ := hpre
        have hlensep : 1 ≤ sep.length := by
          cases sep with
          | nil => exact absurd rfl hne
          | cons _ _ => simp
        have hdrop : (c :: cs).drop sep.length = rest := by
          rw [← hrest, List.drop_left]
        have hlen : rest.length < fuel := by
          have h2 := congrArg List.length hrest
          simp only [List.length_append, List.length_cons] at h2 h ⊢
          omega
        rw [hdrop]
        have hjoin := ih rest hlen
        rcases hsplit : pySplitF sep fuel rest with _ | ⟨h1, t1⟩
        · exact absurd hsplit (pySplitF_ne_nil sep fuel rest)
        · rw [hsplit] at hjoin
          simp only [pyJoinL] at hjoin ⊢
          rw [List.nil_append, ← hrest, hjoin]
      · have hlen : cs.length < fuel := by
          simp only [List.length_cons] at h; omega
        have hjoin := ih cs hlen
        rcases hsplit : pySplitF sep fuel cs with _ | ⟨h1, t1⟩
        · exact absurd hsplit (pySplitF_ne_nil sep fuel cs)
        · rw [hsplit] at hjoin
          cases t1 with
          | nil => simp only [pyJoinL] at hjoin ⊢; rw [hjoin]
          | cons h2 t2 =>
            simp only [pyJoinL, List.cons_append, List.append_assoc]
              at hjoin ⊢
            rw [hjoin]

/-! ## String-level wrappers -/

/-- Model of Python `s.split(sep)` (non-empty `sep`), producing `String`s. -/
def pySplitS (sep s : String) : List String :=
  (pySplitF sep.data (s.data.length + 1) s.data).map (fun l => ⟨l⟩)

/-- Model of Python `sep.join(parts)` on `String`s. -/
def pyJoinS (sep : String) (parts : List String) : String :=
  ⟨pyJoinL sep.data (parts.map String.data)⟩

/-- Model of Python `str.strip()`. -/
def pyStripS (s : String) : String := ⟨pyStripL s.data⟩

/-- Model of Python `str.lower()`. -/
def pyLowerS (s : String) : String := ⟨pyLowerL s.data⟩

/-- Model of Python `s.startswith(p)`. -/
def pyStartsWith (s p : String) : Bool := listStarts p.data s.data

/-- Model of Python `s.endswith(p)`. -/
def pyEndsWith (s p : String) : Bool := listStarts p.data.reverse s.data.reverse

/-- Model of Python `sub in s`. -/
def pyContainsS (s sub : String) : Bool := pyContainsL sub.data s.data

/-- `split_segments` (source line 36): split the stem on the literal
delimiter; an empty (falsy) delimiter yields the whole stem as the single
segment. -/
def splitSegments (stem delim : String) : List String :=
  if delim = "" then [stem] else pySplitS delim stem

theorem pyJoinS_pySplitS (sep s : String) :
    pyJoinS sep (pySplitS sep s) = s := by
  obtain ⟨d⟩ := s
  have h := pyJoin_pySplitF sep.data (d.length + 1) d (by omega)
  show String.mk (pyJoinL sep.data (List.map String.data
    (List.map (fun l => String.mk l) (pySplitF sep.data (d.length + 1) d)))) =
    String.mk d
  rw [List.map_map,
    show (String.data ∘ fun l => String.mk l) = id from rfl,
    List.map_id, h]

/-! ## Python integers: `int(s)` parsing and `str(n)` rendering -/

/-- Checks the digit/underscore pattern accepted by Python `int()` after the
first digit: single underscores must sit between digits. -/
def intDigitsOk : List Char → Bool
  | [] => true
  | '_' :: [] => false
  | '_' :: c :: rest => c.isDigit && intDigitsOk (c :: rest)
  | c :: rest => c.isDigit && intDigitsOk rest

/-- A valid unsigned integer literal for Python `int()`: non-empty, starts
with a digit, underscores only between digits. -/
def intNumOk : List Char → Bool
  | [] => false
  | c :: rest => c.isDigit && intDigitsOk rest

/-- Decimal value of the digit characters of a literal (underscores are
grouping only and are skipped). -/
def intDigitsVal (l : List Char) : Nat :=
  (l.filter Char.isDigit).foldl (fun a c => a * 10 + (c.toNat - 48)) 0

/-- Model of Python `int(s)` (decimal only, as used by the program):
strip whitespace, optional sign, digits with underscore grouping.
Returns `none` where Python raises `ValueError`. -/
def parsePyInt (l : List Char) : Option Int :=
  match pyStripL l with
  | '+' :: rest => if intNumOk rest then some (intDigitsVal rest) else none
  | '-' :: rest => if intNumOk rest then some (-(intDigitsVal rest : Int)) else none
  | rest => if intNumOk rest then some (intDigitsVal rest) else none

/-- `safe_int` (source line 39): `int(s)` with a default on failure. -/
def safeInt (s : String) (default : Int) : Int :=
  (parsePyInt s.data).getD default

/-- The character for a decimal digit. -/
def digitChar10 (n : Nat) : Char := Char.ofNat (48 + n)

/-- Little-endian decimal digits of `n`; fuel `≥ n` is always sufficient. -/
def natReprAux : Nat → Nat → List Char
  | 0, _ => []
  | fuel + 1, n => if n = 0 then [] else digitChar10 (n % 10) :: natReprAux fuel (n / 10)

/-- Model of Python `str(n)` for a natural number. -/
def natRepr (n : Nat) : List Char :=
  if n = 0 then ['0'] else (natReprAux n n).reverse

/-- Model of Python `str(i)` for an `int`. -/
def strInt (i : Int) : String :=
  if i < 0 then ⟨'-' :: natRepr i.natAbs⟩ else ⟨natRepr i.toNat⟩

/-- Little-endian decimal value of a digit-character list. -/
def digitsListVal : List Char → Nat
  | [] => 0
  | c :: cs => (c.toNat - 48) + 10 * digitsListVal cs

theorem digitChar10_toNat : ∀ d, d < 10 → (digitChar10 d).toNat = 48 + d := by
  decide

theorem natReprAux_val : ∀ fuel n, n ≤ fuel →
    digitsListVal (natReprAux fuel n) = n := by
  intro fuel
  induction fuel with
  | zero => intro n h; interval_cases n; simp [natReprAux, digitsListVal]
  | succ f ih =>
    intro n h
    rw [natReprAux]
    by_cases h0 : n = 0
    · simp [h0, digitsListVal]
    · simp only [h0, if_false, digitsListVal]
      have hdiv : n / 10 ≤ f := by
        have := Nat.div_lt_self (Nat.pos_of_ne_zero h0) (by norm_num : 1 < 10)
        omega
      rw [ih (n / 10) hdiv, digitChar10_toNat (n % 10) (Nat.mod_lt n (by norm_num))]
      omega

theorem natRepr_ne_nil (n : Nat) : natRepr n ≠ [] := by
  unfold natRepr
  by_cases h0 : n = 0
  · simp [h0]
  · simp only [h0, if_false]
    cases n with
    | zero => exact absurd rfl h0
    | succ m =>
      rw [natReprAux]
      simp

theorem natRepr_injective : ∀ a b : Nat, natRepr a = natRepr b → a = b := by
  have hval : ∀ n : Nat, n ≠ 0 → digitsListVal ((natRepr n).reverse) = n := by
    intro n hn
    unfold natRepr
    simp only [hn, if_false, List.reverse_reverse]
    exact natReprAux_val n n le_rfl
  intro a b h
  by_cases ha : a = 0 <;> by_cases hb : b = 0
  · rw [ha, hb]
  · have := hval b hb
    rw [← h, ha] at this
    simp only [natRepr, if_pos rfl] at this
    simp [digitsListVal] at this
    omega
  · have := hval a ha
    rw [h, hb] at this
    simp only [natRepr, if_pos rfl] at this
    simp [digitsListVal] at this
    omega
  · have hA := hval a ha
    rw [h] at hA
    rw [hval b hb] at hA
    exact hA.symm

theorem natRepr_digits : ∀ n c, c ∈ natRepr n → ∃ d, d < 10 ∧ c = digitChar10 d := by
  have haux : ∀ fuel n c, c ∈ natReprAux fuel n → ∃ d, d < 10 ∧ c = digitChar10 d := by
    intro fuel
    induction fuel with
    | zero => intro n c h; simp [natReprAux] at h
    | succ f ih =>
      intro n c h
      rw [natReprAux] at h
      by_cases h0 : n = 0
      · simp [h0] at h
      · simp only [h0, if_false, List.mem_cons] at h
        rcases h with h | h
        · exact ⟨n % 10, Nat.mod_lt n (by omega), h⟩
        · exact ih (n / 10) c h
  intro n c h
  unfold natRepr at h
  by_cases h0 : n = 0
  · simp [h0] at h
    exact ⟨0, by norm_num, h⟩
  · simp only [h0, if_false, List.mem_reverse] at h
    exact haux n n c h

theorem toLower_digitChar10 : ∀ d, d < 10 →
    Char.toLower (digitChar10 d) = digitChar10 d := by
  decide

theorem map_fixed_eq_self {α : Type} (f : α → α) :
    ∀ l : List α, (∀ c ∈ l, f c = c) → l.map f = l := by
  intro l h
  induction l with
  | nil => rfl
  | cons a t ih =>
    simp only [List.map_cons, h a (List.mem_cons_self a t)]
    rw [ih (fun c hc => h c (List.mem_cons_of_mem a hc))]

theorem pyLowerL_natRepr (n : Nat) : pyLowerL (natRepr n) = natRepr n := by
  apply map_fixed_eq_self
  intro c hc
  obtain ⟨d, hd, rfl⟩ := natRepr_digits n c hc
  exact toLower_digitChar10 d hd

/-! ## zfill, isdigit, None-able values -/

/-- Model of Python `s.zfill(w)`: left-pad with zeros to width `w`, keeping a
leading sign in front of the padding. -/
def pyZfill (s : String) (w : Nat) : String :=
  if w ≤ s.data.length then s
  else
    match s.data with
    | '+' :: rest => ⟨'+' :: (List.replicate (w - (rest.length + 1)) '0' ++ rest)⟩
    | '-' :: rest => ⟨'-' :: (List.replicate (w - (rest.length + 1)) '0' ++ rest)⟩
    | l => ⟨List.replicate (w - l.length) '0' ++ l⟩

/-- Model of Python `s.isdigit()` (ASCII digits). -/
def pyIsDigit (s : String) : Bool :=
  !s.data.isEmpty && s.data.all Char.isDigit

/-- A value held in the named-variable dictionary (`Dict[str, Any]`): either
a Python string or Python `None` (which regex `groupdict` produces for a
named group that did not participate in a match). -/
abbrev PyVal : Type := Option String

/-- Model of Python `str(v)` applied to a dictionary value: the identity on
strings, and the literal text `"None"` on `None`. -/
def pyStr : PyVal → String
  | Option.none => "None"
  | some s => s

/-! ## Filter chain (`_apply_filters`, source lines 95-132) -/

/-- Model of Python `s.split(sep, 1)`: text before the first occurrence of
the one-character separator, and (when the separator occurs) the text after
it. -/
def splitOnceL (sep : Char) : List Char → (List Char × Option (List Char))
  | [] => ([], Option.none)
  | c :: cs =>
    if c = sep then ([], some cs)
    else
      let r := splitOnceL sep cs
      (c :: r.1, r.2)

/-- `part.split("=", 1)[1]`, as used after a `startswith` guard. -/
def afterEq (part : List Char) : List Char :=
  ((splitOnceL '=' part).2).getD []

/-- Model of Python `s.replace(old, new)` (all occurrences; for an empty
`old`, `new` is interleaved around every character as Python does). -/
def pyReplace (old new s : String) : String :=
  if old = "" then
    ⟨pyJoinL new.data ([[]] ++ s.data.map (fun c => [c]) ++ [[]])⟩
  else pyJoinS new (pySplitS old s)

/-- One step of the filter loop in `_apply_filters`: strip the piece, skip
it when blank, otherwise dispatch on the recognized filter forms; an
unrecognized name falls through to the final `pass`. -/
def applyOneFilter (t : String) (raw : String) : String :=
  let part := pyStripS raw
  if part = "" then t
  else if part = "lower" then ⟨pyLowerL t.data⟩
  else if part = "upper" then ⟨pyUpperL t.data⟩
  else if part = "title" then ⟨pyTitleL t.data⟩
  else if part = "strip" then pyStripS t
  else if pyStartsWith part "pad=" || pyStartsWith part "zfill=" then
    let n := safeInt ⟨afterEq part.data⟩ 0
    if 0 < n ∧ pyIsDigit t then pyZfill t n.toNat else t
  else if pyStartsWith part "prefix=" then ⟨afterEq part.data ++ t.data⟩
  else if pyStartsWith part "suffix=" then ⟨t.data ++ afterEq part.data⟩
  else if pyStartsWith part "replace=" then
    let body := afterEq part.data
    match splitOnceL ':' body with
    | (oldPart, some newPart) => pyReplace ⟨oldPart⟩ ⟨newPart⟩ t
    | (_, Option.none) => t
  else t

/-- `_apply_filters` (source line 95): `None` or blank chain is the
identity, otherwise the pipe-separated pieces are applied left to right. -/
def applyFilters (val : String) (filters : Option String) : String :=
  match filters with
  | Option.none => val
  | some f =>
    if pyStripS f = "" then val
    else (pySplitS "|" f).foldl applyOneFilter val

/-- The filter names `_apply_filters` dispatches on; everything else hits
the `pass` branch. -/
def recognizedFilter (p : String) : Bool :=
  p = "lower" || p = "upper" || p = "title" || p = "strip" ||
  pyStartsWith p "pad=" || pyStartsWith p "zfill=" ||
  pyStartsWith p "prefix=" || pyStartsWith p "suffix=" ||
  pyStartsWith p "replace="

/-! ## Template renderer (`render_template`, source lines 88-187) -/

/-- `_slice_join` (source line 129): filter every element, then join. -/
def sliceJoin (items : List String) (joiner : String) (filters : Option String) : String :=
  pyJoinS joiner (items.map (fun x => applyFilters x filters))

/-- Attempt of the `_PLACEHOLDER` regex at a position just after `{`:
a non-empty run of characters other than `|`/`}` is the key; an optional
`|`-introduced non-empty run of characters other than `}` is the filter
chain; the closing `}` is required.  Returns key, filters and the rest of
the input on success. -/
def tryPlaceholder (rest : List Char) :
    Option (List Char × Option (List Char) × List Char) :=
  let key := rest.takeWhile (fun c => c ≠ '|' ∧ c ≠ '}')
  if key.isEmpty then Option.none
  else
    match rest.drop key.length with
    | '}' :: r1 => some (key, Option.none, r1)
    | '|' :: r1 =>
      let fs := r1.takeWhile (fun c => c ≠ '}')
      if fs.isEmpty then Option.none
      else
        match r1.drop fs.length with
        | '}' :: r2 => some (key, some fs, r2)
        | _ => Option.none
    | _ => Option.none

/-- The `re.sub` scan: at each position try the placeholder pattern; on a
match substitute `resolve key filters` and continue after it, otherwise
copy one character.  Fuel `> length` is always sufficient since every step
consumes at least one character. -/
def renderScan (resolve : List Char → Option (List Char) → List Char) :
    Nat → List Char → List Char
  | 0, s => s
  | _ + 1, [] => []
  | fuel + 1, c :: rest =>
    if c = '{' then
      match tryPlaceholder rest with
      | some (key, fo, rem) => resolve key fo ++ renderScan resolve fuel rem
      | Option.none => c :: renderScan resolve fuel rest
    else c :: renderScan resolve fuel rest

/-- The numeric fallthrough of `repl` (source lines 150-185), reached when
the stripped key is not a named variable: open slice, closed slice, then
single 1-based (possibly negative) index; anything else resolves to the
empty string. -/
def resolveIdx (segs : List String) (joiner : String)
    (filters : Option String) (key : String) : String :=
  if key.data.getLast? = some '+' then
      let idx : Int := safeInt ⟨key.data.dropLast⟩ 0
      if idx = 0 then ""
      else
        let idx2 : Int := if idx < 0 then (segs.length : Int) + 1 + idx else idx
        let start : Int := max 1 idx2
        if (segs.length : Int) < start then ""
        else sliceJoin (segs.drop (start.toNat - 1)) joiner filters
    else if key.data.any (fun c => c = ':') then
      let s : Int := safeInt ⟨(splitOnceL ':' key.data).1⟩ 0
      let e : Int := safeInt ⟨((splitOnceL ':' key.data).2).getD []⟩ 0
      if s = 0 ∨ e = 0 then ""
      else
        let s2 : Int := if s < 0 then (segs.length : Int) + 1 + s else s
        let e2 : Int := if e < 0 then (segs.length : Int) + 1 + e else e
        let s3 : Int := max 1 s2
        let e3 : Int := min (segs.length : Int) e2
        if e3 < s3 then ""
        else sliceJoin ((segs.take e3.toNat).drop (s3.toNat - 1)) joiner filters
    else
      let idx : Int := safeInt key 0
      if idx = 0 then ""
      else
        let idx2 : Int := if idx < 0 then (segs.length : Int) + 1 + idx else idx
        if 1 ≤ idx2 ∧ idx2 ≤ (segs.length : Int) then
          applyFilters (segs.getD (idx2.toNat - 1) "") filters
        else ""

/-- The body of `repl` inside `render_template` (source lines 142-185):
strip the key, look it up among the named variables (where a Python `None`
value renders via `str` as `"None"`), falling through to the numeric
forms. -/
def resolveKey (varsMap : List (String × PyVal)) (segs : List String)
    (joiner : String) (keyRaw : List Char) (filtersRaw : Option (List Char)) :
    String :=
  let key : String := ⟨pyStripL keyRaw⟩
  let filters : Option String := filtersRaw.map (fun l => ⟨l⟩)
  match varsMap.lookup key with
  | some v => applyFilters (pyStr v) filters
  | Option.none => resolveIdx segs joiner filters key

/-- `render_template` (source line 134). -/
def renderTemplate (template : String) (varsMap : List (String × PyVal))
    (segs : List String) (joiner : String) : String :=
  ⟨renderScan (fun k fo => (resolveKey varsMap segs joiner k fo).data)
    (template.data.length + 1) template.data⟩

/-! ## Multi-part extensions (`all_suffixes` / `real_stem`, source lines 28-34) -/

/-- Model of CPython `PurePath.suffixes` on a file name: empty when the
name ends with a dot, otherwise the dot-introduced pieces of the name after
stripping leading dots. -/
def pySuffixes (name : String) : List String :=
  if pyEndsWith name "." then []
  else
    let core := name.data.dropWhile (fun c => c = '.')
    ((pySplitF ['.'] (core.length + 1) core).tail).map (fun l => ⟨'.' :: l⟩)

/-- `all_suffixes` (source line 28): `"".join(p.suffixes)`. -/
def allSuffixes (name : String) : String :=
  ⟨((pySuffixes name).map String.data).foldr (fun a b => a ++ b) []⟩

/-- `real_stem` (source line 31): the name with its full suffix chain cut
off the end (the whole name when there is no suffix). -/
def realStem (name : String) : String :=
  let suf := allSuffixes name
  if suf = "" then name
  else ⟨name.data.take (name.data.length - suf.data.length)⟩

/-! ## Regular expressions (`parse_with_regex`, source line 191)

The program hands the configured pattern to `re.match`; the fragment of
Python regexes the claims exercise is embedded as a small syntax tree with
a backtracking matcher whose candidate order equals Python's (greedy `?`),
and whose `groupdict` lists every named group of the pattern, mapping the
ones that did not participate in the match to `None`. -/

inductive Rx : Type
  | lit (c : Char)
  | seq (a b : Rx)
  | opt (r : Rx)
  | group (name : String) (r : Rx)

/-- All candidate matches of `r` against a prefix of `s`, in Python's
backtracking preference order; each candidate is the remaining input plus
the bindings of the named groups that participated. -/
def rxMatches : Rx → List Char → List (List Char × List (String × String))
  | Rx.lit c, [] => (fun _ => []) c
  | Rx.lit c, x :: rest => if x = c then [(rest, [])] else []
  | Rx.seq a b, s =>
    (rxMatches a s).flatMap (fun p =>
      (rxMatches b p.1).map (fun q => (q.1, p.2 ++ q.2)))
  | Rx.opt r, s => rxMatches r s ++ [(s, [])]
  | Rx.group n r, s =>
    (rxMatches r s).map (fun p =>
      (p.1, p.2 ++ [(n, ⟨s.take (s.length - p.1.length)⟩)]))

/-- The named groups of a pattern, in order. -/
def rxGroupNames : Rx → List String
  | Rx.lit _ => []
  | Rx.seq a b => rxGroupNames a ++ rxGroupNames b
  | Rx.opt r => rxGroupNames r
  | Rx.group n r => n :: rxGroupNames r

/-- `parse_with_regex` (source line 191): `re.match` anchored at the start
of the stem; on success `m.groupdict()` maps every named group of the
pattern to its capture, with `None` for the groups that did not
participate; on failure the empty dictionary. -/
def parseWithRegex (pattern : Rx) (stem : String) : List (String × PyVal) :=
  match rxMatches pattern stem.data with
  | [] => []
  | m :: _ => (rxGroupNames pattern).map (fun n => (n, m.2.lookup n))

/-! ## Data model (`Rules` / `PlanItem`, source lines 47-84) -/

/-- A path in one directory tree: parent directory string plus file name
(`pathlib` paths in the program are only inspected via `.name`, `str(...)`
and `.with_name`). -/
structure PathM where
  dir : String
  name : String
deriving DecidableEq, Repr

/-- `str(path)`. -/
def pathStr (p : PathM) : String :=
  if p.dir = "" then p.name else p.dir ++ "/" ++ p.name

/-- `path.with_name(n)`. -/
def withName (p : PathM) (n : String) : PathM := ⟨p.dir, n⟩

/-- A candidate file as the plan builder sees it: its path plus the two
`stat` timestamps used for sorting and the time variables. -/
structure FileRec where
  dir : String
  name : String
  mtime : Int
  ctime : Int
deriving DecidableEq, Repr

/-- The path of a candidate file. -/
def filePath (f : FileRec) : PathM := ⟨f.dir, f.name⟩

/-- `Rules` (source line 47), restricted to the fields the core consumes.
The optional regex is the embedded pattern syntax tree. -/
structure RulesM where
  delimiter : String := "-"
  regex : Option Rx := Option.none
  include_globs : List String := []
  exclude_globs : List String := []
  exts : List String := []
  template : String := "{stem}"
  slice_joiner : String := "-"
  conflict : String := "skip"
  suffix_sep : String := "_"
  preview_limit : Int := 0
  sort_key : String := "name"
  sort_order : String := "asc"
  seq_start : Int := 1
  seq_step : Int := 1
  seq_pad : Int := 4

/-- `PlanItem` (source line 79). -/
structure PlanItem where
  src : PathM
  dst : PathM
  changed : Bool
  reason : String
deriving DecidableEq, Repr

/-! ## Filtering and sorting (`should_take` / `sort_files`, source lines 195-221) -/

/-- `should_take` (source line 195).  The extension allow-list is matched by
`str(path).lower().endswith(ext.lower())`; glob matching (`path.match`) is
the abstracted parameter `pathMatch`. -/
def shouldTake (pathMatch : String → String → Bool) (f : FileRec)
    (rules : RulesM) : Bool :=
  (rules.exts.isEmpty ||
    rules.exts.any (fun e => pyEndsWith (pyLowerS (pathStr (filePath f))) (pyLowerS e))) &&
  (rules.include_globs.isEmpty ||
    rules.include_globs.any (fun g => pathMatch (pathStr (filePath f)) g)) &&
  (rules.exclude_globs.isEmpty ||
    !(rules.exclude_globs.any (fun g => pathMatch (pathStr (filePath f)) g)))

/-- Lexicographic `≤` on character lists by code point (Python string
comparison). -/
def listLe : List Char → List Char → Bool
  | [], _ => true
  | _ :: _, [] => false
  | a :: as, b :: bs =>
    if a = b then listLe as bs else decide (a < b)

/-- `≤` on the sort key of `sort_files` for an ascending sort: timestamp
first for `mtime`/`ctime` (with the lower-cased name as tie-break), else
the lower-cased name. -/
def fileKeyLe (rules : RulesM) (a b : FileRec) : Bool :=
  let nameLe := listLe (pyLowerL a.name.data) (pyLowerL b.name.data)
  if rules.sort_key = "mtime" then
    decide (a.mtime < b.mtime) || (decide (a.mtime = b.mtime) && nameLe)
  else if rules.sort_key = "ctime" then
    decide (a.ctime < b.ctime) || (decide (a.ctime = b.ctime) && nameLe)
  else nameLe

/-- Stable insertion into a sorted list: `x` goes in front of the first
element it is not strictly greater than, so that equal keys keep their
original order — the behaviour of Python's stable `sorted`. -/
def stableInsert {α : Type} (le : α → α → Bool) (x : α) : List α → List α
  | [] => [x]
  | y :: ys =>
    if le y x && !(le x y) then y :: stableInsert le x ys
    else x :: y :: ys

/-- Stable sort by a boolean total preorder (insertion sort), the model of
Python `sorted`. -/
def pySorted {α : Type} (le : α → α → Bool) : List α → List α
  | [] => []
  | x :: xs => stableInsert le x (pySorted le xs)

/-- `sort_files` (source line 213): `reverse=True` of a stable sort is the
stable sort by the flipped comparison. -/
def sortFiles (rules : RulesM) (files : List FileRec) : List FileRec :=
  if rules.sort_order = "desc" then
    pySorted (fun a b => fileKeyLe rules b a) files
  else pySorted (fileKeyLe rules) files

/-! ## Plan builder (`build_plan`, source lines 223-264) -/

/-- The named-variable dictionary assembled for one file (source lines
236-248): built-ins first, then — when a regex is configured — the
`groupdict` entries, which take precedence (`dict.update`), hence sit in
front for lookup. -/
def varsFor (fmtTime : Int → String) (rules : RulesM) (f : FileRec)
    (v : Int) : List (String × PyVal) :=
  let stem := realStem f.name
  let base : List (String × PyVal) :=
    [("stem", some stem),
     ("ext", some (allSuffixes f.name)),
     ("name", some f.name),
     ("seq", some (pyZfill (strInt v) (max 0 rules.seq_pad).toNat)),
     ("seq_raw", some (strInt v)),
     ("mtime", some (fmtTime f.mtime)),
     ("ctime", some (fmtTime f.ctime))]
  (match rules.regex with
   | Option.none => []
   | some pattern => parseWithRegex pattern stem) ++ base

/-- The plan item built for one surviving file with sequence value `v`
(source lines 233-260): render the template, re-append the extension unless
the template mentions `{ext}` literally, and mark the item changed exactly
when the new name differs. -/
def mkPlanItem (fmtTime : Int → String) (rules : RulesM) (f : FileRec)
    (v : Int) : PlanItem :=
  let stem := realStem f.name
  let ext := allSuffixes f.name
  let segs := splitSegments stem rules.delimiter
  let newStem := renderTemplate rules.template (varsFor fmtTime rules f v)
    segs rules.slice_joiner
  let newName := if pyContainsS rules.template "{ext}" then newStem
    else ⟨newStem.data ++ ext.data⟩
  { src := filePath f
    dst := withName (filePath f) newName
    changed := newName ≠ f.name
    reason := if newName ≠ f.name then "ok" else "no-change" }

/-- A file survives the two `continue` guards of the plan loop: it is not a
leftover of the temporary namespace, and `should_take` accepts it. -/
def survives (pathMatch : String → String → Bool) (rules : RulesM)
    (f : FileRec) : Bool :=
  !pyStartsWith f.name "__tmp_rename__" && shouldTake pathMatch f rules

/-- The plan loop of `build_plan`: the sequence value advances by
`seq_step` exactly once per surviving file. -/
def buildPlanGo (fmtTime : Int → String) (pathMatch : String → String → Bool)
    (rules : RulesM) : List FileRec → Int → List PlanItem
  | [], _ => []
  | f :: fs, v =>
    if survives pathMatch rules f then
      mkPlanItem fmtTime rules f v :: buildPlanGo fmtTime pathMatch rules fs (v + rules.seq_step)
    else buildPlanGo fmtTime pathMatch rules fs v

/-- `build_plan` before the preview truncation (source lines 224-261). -/
def buildPlanFull (fmtTime : Int → String) (pathMatch : String → String → Bool)
    (files : List FileRec) (rules : RulesM) : List PlanItem :=
  buildPlanGo fmtTime pathMatch rules (sortFiles rules files) rules.seq_start

/-- `build_plan` (source line 223), over an already-enumerated file list. -/
def buildPlan (fmtTime : Int → String) (pathMatch : String → String → Bool)
    (files : List FileRec) (rules : RulesM) : List PlanItem :=
  let plan := buildPlanFull fmtTime pathMatch files rules
  if 0 < rules.preview_limit then plan.take rules.preview_limit.toNat else plan

/-! ## Conflict resolver (`dedupe`, source lines 266-284) -/

/-- The candidate destination names tried by the `while` loop of `dedupe`:
`n = 0` is the original destination name, `n ≥ 1` appends
`suffix_sep ++ n` between stem and extension; all are lower-cased for the
case-insensitive claimed set. -/
def dedupCand (candName stem sep ext : String) (n : Nat) : String :=
  if n = 0 then pyLowerS candName
  else pyLowerS ⟨stem.data ++ sep.data ++ natRepr n ++ ext.data⟩

/-- The `while base in seen` search: starting at `n`, return the first
index whose candidate is unclaimed; the fuel is chosen large enough that
one always exists (the candidates are pairwise distinct). -/
def loopFind (cands : Nat → String) (seen : List String) : Nat → Nat → Nat
  | n, 0 => n
  | n, fuel + 1 => if cands n ∈ seen then loopFind cands seen (n + 1) fuel else n

/-- The destination name `dedupe` settles on for a changed item. -/
def dedupedName (rules : RulesM) (seen : List String) (candName : String) :
    Nat × String :=
  let stem := realStem candName
  let ext := allSuffixes candName
  let cands := dedupCand candName stem rules.suffix_sep ext
  let n := loopFind cands seen 0 (seen.length + 1)
  (n, if n = 0 then candName else ⟨stem.data ++ rules.suffix_sep.data ++ natRepr n ++ ext.data⟩)

/-- The loop of `dedupe` under the `suffix` policy, carrying the claimed
set `seen` (unchanged items pass through and claim nothing). -/
def dedupeGo (rules : RulesM) : List PlanItem → List String → List PlanItem
  | [], _ => []
  | it :: rest, seen =>
    if it.changed then
      let r := dedupedName rules seen it.dst.name
      let final := if r.1 = 0 then it.dst else withName it.dst r.2
      { src := it.src, dst := final,
        changed := final.name ≠ it.src.name,
        reason := if 0 < r.1 then "dedup-suffix" else it.reason } ::
        dedupeGo rules rest (pyLowerS final.name :: seen)
    else it :: dedupeGo rules rest seen

/-- `dedupe` (source line 266): the identity unless the conflict policy is
`suffix`. -/
def dedupe (plan : List PlanItem) (rules : RulesM) : List PlanItem :=
  if rules.conflict = "suffix" then dedupeGo rules plan [] else plan

/-! ## Two-phase rename executor (`two_phase_rename`, source lines 286-321) -/

/-- The flat filesystem the executor mutates: path strings mapped to file
contents. -/
abbrev FS : Type := List (String × String)

/-- `path.exists()`. -/
def fsExists (fs : FS) (p : String) : Bool := (fs.lookup p).isSome

/-- `src.rename(dst)`: fails (raises) when the source is absent, otherwise
moves the content, silently replacing any file at `dst` (POSIX rename). -/
def fsRename (fs : FS) (src dst : String) : Option FS :=
  match fs.lookup src with
  | Option.none => Option.none
  | some c => some ((dst, c) :: fs.filter (fun e => e.1 ≠ src ∧ e.1 ≠ dst))

/-- Model of Python `s.replace(old, new, 1)` (first occurrence only). -/
def pyReplace1 (old new s : String) : String :=
  if old = "" then ⟨new.data ++ s.data⟩
  else
    match pySplitS old s with
    | p0 :: p1 :: t => ⟨p0.data ++ new.data ++ (pyJoinS old (p1 :: t)).data⟩
    | _ => s

/-- The log lines of the executor, as tagged entries. -/
inductive LogE : Type
  | skipNoChange (src : String)
  | skipExists (src dst : String)
  | failPhase1 (src dst : String)
  | done (src dst : String)
  | failPhase2 (tmp dst : String)
deriving DecidableEq, Repr

/-- Phase 1 (quarantine, source lines 294-309): unchanged items and items
whose destination currently exists are skipped; otherwise the source is
renamed to its tagged temporary sibling and the pair is recorded. -/
def phase1 (tag : String) : List PlanItem → FS → List (PathM × PathM) →
    Nat → List LogE → FS × List (PathM × PathM) × Nat × List LogE
  | [], fs, pairs, skipped, logs => (fs, pairs, skipped, logs)
  | it :: rest, fs, pairs, skipped, logs =>
    if !it.changed then
      phase1 tag rest fs pairs (skipped + 1) (logs ++ [LogE.skipNoChange it.src.name])
    else if fsExists fs (pathStr it.dst) then
      phase1 tag rest fs pairs (skipped + 1) (logs ++ [LogE.skipExists it.src.name it.dst.name])
    else
      let tmp := withName it.src (tag ++ it.src.name)
      match fsRename fs (pathStr it.src) (pathStr tmp) with
      | some fs2 => phase1 tag rest fs2 (pairs ++ [(tmp, it.dst)]) skipped logs
      | Option.none =>
        phase1 tag rest fs pairs (skipped + 1) (logs ++ [LogE.failPhase1 it.src.name it.dst.name])

/-- Phase 2 (commit, source lines 312-319): move every parked temporary to
its destination (parent directories are created, a no-op in the flat
model); failures are logged and never reverted. -/
def phase2 (tag : String) : List (PathM × PathM) → FS → Nat → List LogE →
    FS × Nat × List LogE
  | [], fs, ok, logs => (fs, ok, logs)
  | (tmp, dst) :: rest, fs, ok, logs =>
    match fsRename fs (pathStr tmp) (pathStr dst) with
    | some fs2 =>
      phase2 tag rest fs2 (ok + 1)
        (logs ++ [LogE.done (pyReplace1 tag "" tmp.name) dst.name])
    | Option.none =>
      phase2 tag rest fs ok (logs ++ [LogE.failPhase2 tmp.name dst.name])

/-- `two_phase_rename` (source line 286): quarantine then commit, returning
`(ok, skipped, logs)` plus the final filesystem. -/
def twoPhaseRename (tag : String) (toApply : List PlanItem) (fs : FS) :
    Nat × Nat × List LogE × FS :=
  let r1 := phase1 tag toApply fs [] 0 []
  let r2 := phase2 tag r1.2.1 r1.1 0 r1.2.2.2
  (r2.2.1, r1.2.2.1, r2.2.2, r2.1)

/-! ## Shared concrete scenario ingredients -/

/-- A concrete stand-in for the abstracted `datetime` formatting parameter
in fully evaluated scenarios. -/
def fmtTimeZero : Int → String := fun _ => ""

/-- A concrete stand-in for the abstracted glob matcher in scenarios whose
configurations use no glob patterns. -/
def pathMatchNone : String → String → Bool := fun _ _ => false

/-- A configuration whose template swaps the stems `A` and `B` through a
replace-filter chain. -/
def swapRules : RulesM :=
  { template := "{stem|replace=A:X|replace=B:A|replace=X:B}" }

/-- The two files of the cycle scenario. -/
def swapFiles : List FileRec := [⟨"", "A.txt", 0, 0⟩, ⟨"", "B.txt", 0, 0⟩]

/-- The directory of the cycle scenario: `A.txt` and `B.txt` with
distinguishable contents. -/
def swapFS : FS := [("A.txt", "contentA"), ("B.txt", "contentB")]

/-- The pattern `(?P<a>x)?y`. -/
def rxOptXY : Rx := Rx.seq (Rx.opt (Rx.group "a" (Rx.lit 'x'))) (Rx.lit 'y')

/-! ## Claim theorems -/

/-- C1: for the directory `{A.txt, B.txt}` and the stem-swapping
configuration, the plan does pair each file with the other's name, but the
two-phase executor skips BOTH items (each destination still exists when its
phase-1 existence check runs), logs two `目标已存在` skips, performs zero
successful renames and leaves the filesystem untouched — the swap claimed
by the specification does not happen. -/
theorem two_phase_cycle_skips_both :
    (buildPlan fmtTimeZero pathMatchNone swapFiles swapRules).map
      (fun it => (it.src.name, it.dst.name, it.changed)) =
      [("A.txt", "B.txt", true), ("B.txt", "A.txt", true)] ∧
    twoPhaseRename "__tmp_rename__0a1b2c3d__"
      ((buildPlan fmtTimeZero pathMatchNone swapFiles swapRules).filter
        (fun it => it.changed)) swapFS =
      (0, 2, [LogE.skipExists "A.txt" "B.txt", LogE.skipExists "B.txt" "A.txt"],
        swapFS) := by
  decide

/-- C3: for the stem `y` and the configured regex `(?P<a>x)?y`, the
optional group `a` does not participate in the match, yet `groupdict`
keeps the key `a` with value `None`; the template `{a}` therefore renders
`str(None)`, i.e. the destination name becomes the literal text `None`,
not the empty string the specification promises. -/
theorem unmatched_group_renders_none :
    parseWithRegex rxOptXY "y" = [("a", Option.none)] ∧
    (buildPlan fmtTimeZero pathMatchNone [⟨"", "y", 0, 0⟩]
      { regex := some rxOptXY, template := "{a}" }).map
      (fun it => it.dst.name) = ["None"] := by
  decide

/-- C2 (counterexample): with the `suffix` policy, a plan consisting of a
changed item `a.txt → x.txt` followed by an unchanged item
`x.txt → x.txt` resolves to two items whose destination names are equal
case-insensitively — the unchanged item never claims its name. -/
theorem dedupe_shared_name_counterexample :
    ¬ List.Pairwise (fun a b => pyLowerS a.dst.name ≠ pyLowerS b.dst.name)
      (dedupe
        [⟨⟨"", "a.txt"⟩, ⟨"", "x.txt"⟩, true, "ok"⟩,
         ⟨⟨"", "x.txt"⟩, ⟨"", "x.txt"⟩, false, "no-change"⟩]
        { conflict := "suffix" }) := by
  decide

/-- C5 (counterexample): with the allow-list `[".gz"]`, the file
`a.tar.gz` passes the extension filter even though its full trailing
suffix chain `.tar.gz` is not case-insensitively equal to any allow-list
entry — `should_take` tests `str(path).lower().endswith(...)`, not
suffix-chain equality. -/
theorem ext_filter_counterexample :
    shouldTake pathMatchNone ⟨"", "a.tar.gz", 0, 0⟩ { exts := [".gz"] } = true ∧
    ¬ ([".gz"].any (fun e =>
        pyLowerS (allSuffixes "a.tar.gz") = pyLowerS e) = true) := by
  decide

/-- C7 (counterexample): three files `a.txt`, `b.txt`, `c.txt` with
sequence start 1, step 1, pad 3 and template `img_{seq}` get destinations
`img_001.txt`, `img_002.txt`, `img_003.txt` — the original extension is
re-appended, so the destinations are NOT `img_001`, `img_002`, `img_003`
independent of the original names. -/
theorem seq_scenario_counterexample :
    ¬ ((buildPlan fmtTimeZero pathMatchNone
        [⟨"", "a.txt", 0, 0⟩, ⟨"", "b.txt", 0, 0⟩, ⟨"", "c.txt", 0, 0⟩]
        { template := "img_{seq}", seq_pad := 3 }).map (fun it => it.dst.name) =
      ["img_001", "img_002", "img_003"]) := by
  decide

/-- C9: splitting any stem on any non-empty delimiter and rejoining the
segments with that delimiter reproduces the stem exactly. -/
theorem split_join_roundtrip (S D : String) (h : D ≠ "") :
    pyJoinS D (splitSegments S D) = S := by
  unfold splitSegments
  rw [if_neg h]
  exact pyJoinS_pySplitS D S

theorem split_join_roundtrip_witness :
    ("-" : String) ≠ "" ∧ pyJoinS "-" (splitSegments "a-b-c" "-") = "a-b-c" :=
  ⟨by decide, split_join_roundtrip "a-b-c" "-" (by decide)⟩

/-- C6: when the configured template does not contain the literal token
`{ext}`, the destination name of every plan item is the rendered template
output with the file's full multi-part extension appended; concretely,
`archive.tar.gz` has stem `archive` and extension `.tar.gz`, and the
template `{stem}_backup` yields destination `archive_backup.tar.gz`. -/
theorem ext_appended :
    (∀ (fmtTime : Int → String) (rules : RulesM) (f : FileRec) (v : Int),
      pyContainsS rules.template "{ext}" = false →
      (mkPlanItem fmtTime rules f v).dst.name =
        ⟨(renderTemplate rules.template (varsFor fmtTime rules f v)
            (splitSegments (realStem f.name) rules.delimiter)
            rules.slice_joiner).data ++ (allSuffixes f.name).data⟩) ∧
    (buildPlan fmtTimeZero pathMatchNone [⟨"", "archive.tar.gz", 0, 0⟩]
      { template := "{stem}_backup" }).map (fun it => it.dst.name) =
      ["archive_backup.tar.gz"] ∧
    realStem "archive.tar.gz" = "archive" ∧
    allSuffixes "archive.tar.gz" = ".tar.gz" := by
  constructor
  · intro fmtTime rules f v h
    simp only [mkPlanItem, withName, filePath, h, Bool.false_eq_true, if_false]
  · decide

theorem ext_appended_witness :
    pyContainsS ("{stem}_backup" : String) "{ext}" = false ∧
    (mkPlanItem fmtTimeZero { template := "{stem}_backup" }
      ⟨"", "archive.tar.gz", 0, 0⟩ 1).dst.name =
      ⟨(renderTemplate "{stem}_backup"
          (varsFor fmtTimeZero { template := "{stem}_backup" }
            ⟨"", "archive.tar.gz", 0, 0⟩ 1)
          (splitSegments (realStem "archive.tar.gz") "-") "-").data ++
        (allSuffixes "archive.tar.gz").data⟩ :=
  ⟨by decide,
    ext_appended.1 fmtTimeZero { template := "{stem}_backup" }
      ⟨"", "archive.tar.gz", 0, 0⟩ 1 (by decide)⟩

theorem mem_buildPlanGo {fmtTime : Int → String}
    {pathMatch : String → String → Bool} {rules : RulesM} :
    ∀ (fs : List FileRec) (v : Int) (it : PlanItem),
    it ∈ buildPlanGo fmtTime pathMatch rules fs v →
    ∃ f v2, it = mkPlanItem fmtTime rules f v2 := by
  intro fs
  induction fs with
  | nil => intro v it h; simp [buildPlanGo] at h
  | cons f fs ih =>
    intro v it h
    rw [buildPlanGo] at h
    by_cases hs : survives pathMatch rules f
    · rw [if_pos hs] at h
      rcases List.mem_cons.mp h with h | h
      · exact ⟨f, v, h⟩
      · exact ih _ it h
    · rw [if_neg hs] at h
      exact ih _ it h

theorem mkPlanItem_changed_iff (fmtTime : Int → String) (rules : RulesM)
    (f : FileRec) (v : Int) :
    (mkPlanItem fmtTime rules f v).changed = true ↔
    (mkPlanItem fmtTime rules f v).dst.name ≠ (mkPlanItem fmtTime rules f v).src.name := by
  simp only [mkPlanItem, withName, filePath, decide_eq_true_eq]

theorem dedupeGo_changed_iff {rules : RulesM} :
    ∀ (plan : List PlanItem) (seen : List String) (it : PlanItem),
    (∀ j ∈ plan, j.changed = true ↔ j.dst.name ≠ j.src.name) →
    it ∈ dedupeGo rules plan seen →
    (it.changed = true ↔ it.dst.name ≠ it.src.name) := by
  intro plan
  induction plan with
  | nil => intro seen it _ h; simp [dedupeGo] at h
  | cons it0 rest ih =>
    intro seen it hall h
    rw [dedupeGo] at h
    by_cases hc : it0.changed
    · rw [if_pos hc] at h
      rcases List.mem_cons.mp h with h | h
      · subst h
        simp only [withName, decide_eq_true_eq]
      · exact ih _ it (fun j hj => hall j (List.mem_cons_of_mem it0 hj)) h
    · rw [if_neg hc] at h
      rcases List.mem_cons.mp h with h | h
      · rw [h]
        exact hall it0 (List.mem_cons_self it0 rest)
      · exact ih _ it (fun j hj => hall j (List.mem_cons_of_mem it0 hj)) h

/-- C10: every item the plan builder produces, and every item of the plan
after conflict resolution under either policy, has its changed flag true
exactly when its destination file name differs from its source file name
(the resolver recomputes the flag, so an auto-suffix rewrite landing back
on the source name is re-marked unchanged). -/
theorem changed_flag_iff_renamed :
    (∀ (fmtTime : Int → String) (pathMatch : String → String → Bool)
        (files : List FileRec) (rules : RulesM) (it : PlanItem),
      it ∈ buildPlan fmtTime pathMatch files rules →
      (it.changed = true ↔ it.dst.name ≠ it.src.name)) ∧
    (∀ (rules : RulesM) (plan : List PlanItem) (it : PlanItem),
      (∀ j ∈ plan, j.changed = true ↔ j.dst.name ≠ j.src.name) →
      it ∈ dedupe plan rules →
      (it.changed = true ↔ it.dst.name ≠ it.src.name)) := by
  constructor
  · intro fmtTime pathMatch files rules it h
    have hmem : it ∈ buildPlanFull fmtTime pathMatch files rules := by
      unfold buildPlan at h
      by_cases hl : 0 < rules.preview_limit
      · rw [if_pos hl] at h
        exact List.take_subset _ _ h
      · rw [if_neg hl] at h
        exact h
    obtain ⟨f, v2, rfl⟩ := mem_buildPlanGo _ _ it hmem
    exact mkPlanItem_changed_iff fmtTime rules f v2
  · intro rules plan it hall h
    unfold dedupe at h
    by_cases hc : rules.conflict = "suffix"
    · rw [if_pos hc] at h
      exact dedupeGo_changed_iff plan [] it hall h
    · rw [if_neg hc] at h
      exact hall it h

theorem changed_flag_iff_renamed_witness :
    (⟨⟨"", "A.txt"⟩, ⟨"", "B.txt"⟩, true, "ok"⟩ : PlanItem) ∈
      buildPlan fmtTimeZero pathMatchNone swapFiles swapRules ∧
    ((⟨⟨"", "A.txt"⟩, ⟨"", "B.txt"⟩, true, "ok"⟩ : PlanItem).changed = true ↔
      (⟨⟨"", "A.txt"⟩, ⟨"", "B.txt"⟩, true, "ok"⟩ : PlanItem).dst.name ≠
      (⟨⟨"", "A.txt"⟩, ⟨"", "B.txt"⟩, true, "ok"⟩ : PlanItem).src.name) :=
  ⟨by decide,
    changed_flag_iff_renamed.1 fmtTimeZero pathMatchNone swapFiles swapRules
      ⟨⟨"", "A.txt"⟩, ⟨"", "B.txt"⟩, true, "ok"⟩ (by decide)⟩

/-- The conditions under which the numeric fallthrough of `repl` yields a
segment or slice rather than the empty string, read off the branches of
`resolveIdx`; a placeholder is unresolvable when its stripped key is not a
named variable and this predicate is false. -/
def resolvableNum (segs : List String) (key : String) : Bool :=
  if key.data.getLast? = some '+' then
    let idx : Int := safeInt ⟨key.data.dropLast⟩ 0
    let idx2 : Int := if idx < 0 then (segs.length : Int) + 1 + idx else idx
    !decide (idx = 0) && decide (max 1 idx2 ≤ (segs.length : Int))
  else if key.data.any (fun c => c = ':') then
    let s : Int := safeInt ⟨(splitOnceL ':' key.data).1⟩ 0
    let e : Int := safeInt ⟨((splitOnceL ':' key.data).2).getD []⟩ 0
    let s2 : Int := if s < 0 then (segs.length : Int) + 1 + s else s
    let e2 : Int := if e < 0 then (segs.length : Int) + 1 + e else e
    !decide (s = 0) && !decide (e = 0) &&
      decide (max 1 s2 ≤ min (segs.length : Int) e2)
  else
    let idx : Int := safeInt key 0
    let idx2 : Int := if idx < 0 then (segs.length : Int) + 1 + idx else idx
    !decide (idx = 0) && decide (1 ≤ idx2) && decide (idx2 ≤ (segs.length : Int))

theorem resolveIdx_unresolvable (segs : List String) (joiner : String)
    (filters : Option String) (key : String)
    (hres : resolvableNum segs key = false) :
    resolveIdx segs joiner filters key = "" := by
  simp only [resolveIdx]
  simp only [resolvableNum] at hres
  by_cases hplus : key.data.getLast? = some '+'
  · rw [if_pos hplus] at hres ⊢
    generalize hA : safeInt (⟨key.data.dropLast⟩ : String) 0 = A at hres ⊢
    by_cases hA0 : A = 0
    · rw [if_pos hA0]
    · rw [if_neg hA0]
      simp only [Bool.and_eq_false_iff, Bool.not_eq_false',
        decide_eq_true_eq, decide_eq_false_iff_not] at hres
      rcases hres with h | h
      · exact absurd h hA0
      · rw [if_pos (by omega)]
  · rw [if_neg hplus] at hres ⊢
    by_cases hcolon : (key.data.any fun c => c = ':') = true
    · rw [if_pos hcolon] at hres ⊢
      generalize hS : safeInt (⟨(splitOnceL ':' key.data).1⟩ : String) 0 = A at hres ⊢
      generalize hE : safeInt (⟨((splitOnceL ':' key.data).2).getD []⟩ : String) 0 = B at hres ⊢
      by_cases h0 : A = 0 ∨ B = 0
      · rw [if_pos h0]
      · rw [if_neg h0]
        simp only [Bool.and_eq_false_iff, Bool.not_eq_false',
          decide_eq_true_eq, decide_eq_false_iff_not] at hres
        rcases hres with (h | h) | h
        · exact absurd (Or.inl h) h0
        · exact absurd (Or.inr h) h0
        · rw [if_pos (by omega)]
    · rw [if_neg hcolon] at hres ⊢
      generalize hA : safeInt key 0 = A at hres ⊢
      by_cases hA0 : A = 0
      · rw [if_pos hA0]
      · rw [if_neg hA0]
        simp only [Bool.and_eq_false_iff, Bool.not_eq_false',
          decide_eq_true_eq, decide_eq_false_iff_not] at hres
        rcases hres with (h | h) | h
        · exact absurd h hA0
        · rw [if_neg (by omega)]
        · rw [if_neg (by omega)]

/-- C4: rendering is total (every model function is a total Lean function),
an unrecognized filter name leaves the accumulated string exactly unchanged
at its step of the chain, and every unresolvable placeholder — a key that
is no named variable and whose numeric interpretation fails (unknown
identifier, malformed key, index or slice out of range) — contributes the
empty string. -/
theorem render_fail_soft :
    (∀ (t raw : String), recognizedFilter (pyStripS raw) = false →
      applyOneFilter t raw = t) ∧
    (∀ (varsMap : List (String × PyVal)) (segs : List String) (joiner : String)
        (keyRaw : List Char) (filtersRaw : Option (List Char)),
      varsMap.lookup ⟨pyStripL keyRaw⟩ = Option.none →
      resolvableNum segs ⟨pyStripL keyRaw⟩ = false →
      resolveKey varsMap segs joiner keyRaw filtersRaw = "") := by
  constructor
  · intro t raw h
    simp only [recognizedFilter, Bool.or_eq_false_iff, decide_eq_false_iff_not] at h
    simp only [applyOneFilter]
    split_ifs <;> simp_all
  · intro varsMap segs joiner keyRaw filtersRaw hv hres
    simp only [resolveKey]
    simp only [hv]
    exact resolveIdx_unresolvable segs joiner _ _ hres

theorem render_fail_soft_witness :
    (recognizedFilter (pyStripS "frobnicate") = false ∧
      applyOneFilter "Abc" "frobnicate" = "Abc") ∧
    (List.lookup (⟨pyStripL ("99" : String).data⟩ : String)
        ([] : List (String × PyVal)) = Option.none ∧
      resolvableNum ["a", "b"] ⟨pyStripL ("99" : String).data⟩ = false ∧
      resolveKey [] ["a", "b"] "-" ("99" : String).data Option.none = "") :=
  ⟨⟨by decide, render_fail_soft.1 "Abc" "frobnicate" (by decide)⟩,
   ⟨by decide, by decide,
    render_fail_soft.2 [] ["a", "b"] "-" ("99" : String).data Option.none
      (by decide) (by decide)⟩⟩

theorem getD_length_sub_one {α : Type} :
    ∀ (l : List α) (h : l ≠ []) (d : α), l.getD (l.length - 1) d = l.getLast h := by
  intro l
  induction l with
  | nil => intro h; exact absurd rfl h
  | cons x r ih =>
    intro h d
    cases r with
    | nil => rfl
    | cons y t =>
      have hne : y :: t ≠ [] := by simp
      rw [List.getLast_cons hne]
      have h1 : (x :: y :: t).length - 1 = (y :: t).length := by simp
      rw [h1]
      have h2 : (y :: t).length = ((y :: t).length - 1) + 1 := by simp
      rw [h2, List.getD_cons_succ]
      exact ih hne d

/-- C8: for a non-empty segment list and any filter chain, the placeholder
key `-1` resolves to the last segment (with the filters then applied to
it), and the key `0` always resolves to the empty string — for every
segment count. -/
theorem key_minus_one_and_zero :
    (∀ (varsMap : List (String × PyVal)) (segs : List String) (joiner : String)
        (filtersRaw : Option (List Char)) (h : segs ≠ []),
      varsMap.lookup "-1" = Option.none →
      resolveKey varsMap segs joiner ("-1" : String).data filtersRaw =
        applyFilters (segs.getLast h) (filtersRaw.map (fun l => ⟨l⟩))) ∧
    (∀ (varsMap : List (String × PyVal)) (segs : List String) (joiner : String)
        (filtersRaw : Option (List Char)),
      varsMap.lookup "0" = Option.none →
      resolveKey varsMap segs joiner ("0" : String).data filtersRaw = "") := by
  constructor
  · intro varsMap segs joiner filtersRaw h hv
    have hlen : 0 < segs.length := List.length_pos.mpr h
    have hkey : (⟨pyStripL ("-1" : String).data⟩ : String) = "-1" := by decide
    unfold resolveKey
    rw [hkey]
    simp only [hv]
    simp only [resolveIdx]
    rw [if_neg (by decide : ¬ (("-1" : String).data.getLast? = some '+'))]
    rw [if_neg (by decide : ¬ ((("-1" : String).data.any fun c => c = ':') = true))]
    rw [show safeInt "-1" 0 = -1 from by decide]
    rw [if_neg (by norm_num : ¬ ((-1 : Int) = 0))]
    rw [if_pos (by norm_num : (-1 : Int) < 0)]
    rw [if_pos (by omega :
      1 ≤ (segs.length : Int) + 1 + -1 ∧ (segs.length : Int) + 1 + -1 ≤ (segs.length : Int))]
    have ht : ((segs.length : Int) + 1 + -1).toNat - 1 = segs.length - 1 := by omega
    rw [ht, getD_length_sub_one segs h]
  · intro varsMap segs joiner filtersRaw hv
    have hkey : (⟨pyStripL ("0" : String).data⟩ : String) = "0" := by decide
    unfold resolveKey
    rw [hkey]
    simp only [hv]
    simp only [resolveIdx]
    rw [if_neg (by decide : ¬ (("0" : String).data.getLast? = some '+'))]
    rw [if_neg (by decide : ¬ ((("0" : String).data.any fun c => c = ':') = true))]
    rw [show safeInt "0" 0 = 0 from by decide]
    simp

theorem key_minus_one_and_zero_witness :
    (["a", "b"] : List String) ≠ [] ∧
    List.lookup ("-1" : String) ([] : List (String × PyVal)) = Option.none ∧
    resolveKey [] ["a", "b"] "-" ("-1" : String).data Option.none = "b" ∧
    List.lookup ("0" : String) ([] : List (String × PyVal)) = Option.none ∧
    resolveKey [] ["a", "b"] "-" ("0" : String).data Option.none = "" := by
  refine ⟨by decide, by decide, ?_, by decide, ?_⟩
  · rw [key_minus_one_and_zero.1 [] ["a", "b"] "-" Option.none (by decide) (by decide)]
    decide
  · exact key_minus_one_and_zero.2 [] ["a", "b"] "-" Option.none (by decide)

/-- C5: when the extension allow-list is non-empty (and no glob filters are
configured), a candidate passes the extension filter if and only if the
lower-cased full path string ends with some lower-cased allow-list entry —
an `endswith` test, not equality of the full trailing suffix chain. -/
theorem ext_filter_is_endswith (pathMatch : String → String → Bool)
    (f : FileRec) (rules : RulesM)
    (hi : rules.include_globs = []) (he : rules.exclude_globs = [])
    (hx : rules.exts ≠ []) :
    shouldTake pathMatch f rules = true ↔
      ∃ e ∈ rules.exts,
        pyEndsWith (pyLowerS (pathStr (filePath f))) (pyLowerS e) = true := by
  have hxe : rules.exts.isEmpty = false := by
    rcases h : rules.exts with _ | ⟨a, t⟩
    · exact absurd h hx
    · rfl
  simp [shouldTake, hi, he, hxe, List.any_eq_true]

theorem ext_filter_is_endswith_witness :
    ([".gz"] : List String) ≠ [] ∧
    (shouldTake pathMatchNone ⟨"", "a.tar.gz", 0, 0⟩ { exts := [".gz"] } = true ↔
      ∃ e ∈ ([".gz"] : List String),
        pyEndsWith (pyLowerS (pathStr (filePath ⟨"", "a.tar.gz", 0, 0⟩)))
          (pyLowerS e) = true) :=
  ⟨by decide,
    ext_filter_is_endswith pathMatchNone ⟨"", "a.tar.gz", 0, 0⟩
      { exts := [".gz"] } rfl rfl (by decide)⟩

theorem buildPlanGo_getElem (fmtTime : Int → String)
    (pm : String → String → Bool) (rules : RulesM) :
    ∀ (fs : List FileRec) (v : Int) (k : Nat),
    (buildPlanGo fmtTime pm rules fs v)[k]? =
      ((fs.filter (survives pm rules))[k]?).map
        (fun f => mkPlanItem fmtTime rules f (v + (k : Int) * rules.seq_step)) := by
  intro fs
  induction fs with
  | nil => intro v k; simp [buildPlanGo]
  | cons f fs ih =>
    intro v k
    rw [buildPlanGo]
    by_cases hs : survives pm rules f = true
    · rw [if_pos hs, List.filter_cons_of_pos hs]
      cases k with
      | zero => simp
      | succ k =>
        simp only [List.getElem?_cons_succ]
        rw [ih]
        have harg : (v + rules.seq_step) + (k : Int) * rules.seq_step =
            v + ((k : Nat) + 1 : Int) * rules.seq_step := by ring
        rw [harg]
        norm_num
    · rw [if_neg hs, List.filter_cons_of_neg (by simpa using hs)]
      exact ih v k

/-- The configuration of the sequence scenario: template `img_{seq}`,
sequence start 1, step 1, pad 3 (the defaults for start and step). -/
def seqRules : RulesM := { template := "img_{seq}", seq_pad := 3 }

/-- C7: the sequence counter starts at the configured start value and
advances by the configured step exactly once per file that passes
filtering, in sort order, regardless of whether that file's name changes
(the k-th surviving file is rendered with value `start + k·step`); in the
three-file scenario the destinations are `img_001`, `img_002`, `img_003`
in sorted order — each with the file's original full extension appended,
whatever the original names were. -/
theorem seq_counter_per_survivor :
    (∀ (fmtTime : Int → String) (pm : String → String → Bool)
        (files : List FileRec) (rules : RulesM) (k : Nat),
      (buildPlanFull fmtTime pm files rules)[k]? =
        (((sortFiles rules files).filter (survives pm rules))[k]?).map
          (fun f => mkPlanItem fmtTime rules f
            (rules.seq_start + (k : Int) * rules.seq_step))) ∧
    (∀ (n1 n2 n3 : String),
      listLe (pyLowerL n1.data) (pyLowerL n2.data) = true →
      listLe (pyLowerL n2.data) (pyLowerL n3.data) = true →
      pyStartsWith n1 "__tmp_rename__" = false →
      pyStartsWith n2 "__tmp_rename__" = false →
      pyStartsWith n3 "__tmp_rename__" = false →
      (buildPlan fmtTimeZero pathMatchNone
        [⟨"", n1, 0, 0⟩, ⟨"", n2, 0, 0⟩, ⟨"", n3, 0, 0⟩] seqRules).map
        (fun it => it.dst.name) =
      [⟨("img_001" : String).data ++ (allSuffixes n1).data⟩,
       ⟨("img_002" : String).data ++ (allSuffixes n2).data⟩,
       ⟨("img_003" : String).data ++ (allSuffixes n3).data⟩]) := by
  constructor
  · intro fmtTime pm files rules k
    unfold buildPlanFull
    exact buildPlanGo_getElem fmtTime pm rules (sortFiles rules files) rules.seq_start k
  · intro n1 n2 n3 h12 h23 t1 t2 t3
    have hk12 : fileKeyLe seqRules ⟨"", n1, 0, 0⟩ ⟨"", n2, 0, 0⟩ = true := h12
    have hk23 : fileKeyLe seqRules ⟨"", n2, 0, 0⟩ ⟨"", n3, 0, 0⟩ = true := h23
    have hsort : sortFiles seqRules [⟨"", n1, 0, 0⟩, ⟨"", n2, 0, 0⟩, ⟨"", n3, 0, 0⟩] =
        [⟨"", n1, 0, 0⟩, ⟨"", n2, 0, 0⟩, ⟨"", n3, 0, 0⟩] := by
      unfold sortFiles
      rw [if_neg (by decide : ¬ (seqRules.sort_order = "desc"))]
      simp only [pySorted, stableInsert, hk12, hk23]
      simp [stableInsert, hk12, hk23]
    have hs1 : survives pathMatchNone seqRules ⟨"", n1, 0, 0⟩ = true := by
      unfold survives
      show (!pyStartsWith n1 "__tmp_rename__" &&
        shouldTake pathMatchNone ⟨"", n1, 0, 0⟩ seqRules) = true
      rw [t1]
      rfl
    have hs2 : survives pathMatchNone seqRules ⟨"", n2, 0, 0⟩ = true := by
      unfold survives
      show (!pyStartsWith n2 "__tmp_rename__" &&
        shouldTake pathMatchNone ⟨"", n2, 0, 0⟩ seqRules) = true
      rw [t2]
      rfl
    have hs3 : survives pathMatchNone seqRules ⟨"", n3, 0, 0⟩ = true := by
      unfold survives
      show (!pyStartsWith n3 "__tmp_rename__" &&
        shouldTake pathMatchNone ⟨"", n3, 0, 0⟩ seqRules) = true
      rw [t3]
      rfl
    unfold buildPlan buildPlanFull
    rw [if_neg (by decide : ¬ ((0 : Int) < seqRules.preview_limit))]
    rw [hsort]
    simp only [buildPlanGo, hs1, hs2, hs3, if_true, List.map]
    rfl

theorem seq_counter_per_survivor_witness :
    listLe (pyLowerL ("a.txt" : String).data) (pyLowerL ("b.txt" : String).data) = true ∧
    listLe (pyLowerL ("b.txt" : String).data) (pyLowerL ("c.txt" : String).data) = true ∧
    pyStartsWith "a.txt" "__tmp_rename__" = false ∧
    pyStartsWith "b.txt" "__tmp_rename__" = false ∧
    pyStartsWith "c.txt" "__tmp_rename__" = false ∧
    (buildPlan fmtTimeZero pathMatchNone
      [⟨"", "a.txt", 0, 0⟩, ⟨"", "b.txt", 0, 0⟩, ⟨"", "c.txt", 0, 0⟩] seqRules).map
      (fun it => it.dst.name) =
    [⟨("img_001" : String).data ++ (allSuffixes "a.txt").data⟩,
     ⟨("img_002" : String).data ++ (allSuffixes "b.txt").data⟩,
     ⟨("img_003" : String).data ++ (allSuffixes "c.txt").data⟩] :=
  ⟨by decide, by decide, by decide, by decide, by decide,
   seq_counter_per_survivor.2 "a.txt" "b.txt" "c.txt"
     (by decide) (by decide) (by decide) (by decide) (by decide)⟩

theorem pyJoinL_cons_eq (sep : List Char) :
    ∀ (x : List Char) (t : List (List Char)),
    pyJoinL sep (x :: t) =
      x ++ (t.map (fun y => sep ++ y)).foldr (fun a b => a ++ b) [] := by
  intro x t
  induction t generalizing x with
  | nil => simp [pyJoinL]
  | cons y t2 ih =>
    simp only [pyJoinL, List.map_cons, List.foldr_cons]
    rw [ih y]
    simp [List.append_assoc]

theorem split_head_concat (sep : List Char) (s : List Char) :
    ∃ p0 ps, pySplitF sep (s.length + 1) s = p0 :: ps ∧
      s = p0 ++ (ps.map (fun y => sep ++ y)).foldr (fun a b => a ++ b) [] := by
  rcases hparts : pySplitF sep (s.length + 1) s with _ | ⟨p0, ps⟩
  · exact absurd hparts (pySplitF_ne_nil _ _ _)
  · refine ⟨p0, ps, rfl, ?_⟩
    have h1 := pyJoin_pySplitF sep (s.length + 1) s (by omega)
    rw [hparts] at h1
    rw [← h1, pyJoinL_cons_eq]

theorem allSuffixes_data_suffix (name : String) :
    ∃ pre : List Char, name.data = pre ++ (allSuffixes name).data := by
  by_cases hend : pyEndsWith name "." = true
  · refine ⟨name.data, ?_⟩
    have hnil : (allSuffixes name).data = [] := by
      unfold allSuffixes pySuffixes
      rw [if_pos hend]
      rfl
    rw [hnil, List.append_nil]
  · obtain ⟨p0, ps, hparts, hjoin⟩ :=
      split_head_concat ['.'] (name.data.dropWhile (fun c => c = '.'))
    have hdata : (allSuffixes name).data =
        (ps.map (fun y => ['.'] ++ y)).foldr (fun a b => a ++ b) [] := by
      unfold allSuffixes pySuffixes
      rw [if_neg hend]
      simp only [hparts, List.tail_cons, List.map_map]
      show (ps.map (String.data ∘ fun l => String.mk ('.' :: l))).foldr
        (fun a b => a ++ b) [] = _
      rw [show (String.data ∘ fun l => String.mk ('.' :: l)) =
        (fun y => ['.'] ++ y) from rfl]
    refine ⟨name.data.takeWhile (fun c => c = '.') ++ p0, ?_⟩
    rw [hdata, List.append_assoc, ← hjoin]
    exact (List.takeWhile_append_dropWhile _ _).symm

theorem realStem_append_allSuffixes (name : String) :
    (realStem name).data ++ (allSuffixes name).data = name.data := by
  unfold realStem
  by_cases hsuf : allSuffixes name = ""
  · rw [if_pos hsuf, hsuf]
    simp
  · rw [if_neg hsuf]
    obtain ⟨pre, hpre⟩ := allSuffixes_data_suffix name
    have hlen : name.data.length - (allSuffixes name).data.length = pre.length := by
      rw [hpre]
      simp
    show name.data.take (name.data.length - (allSuffixes name).data.length) ++
      (allSuffixes name).data = name.data
    rw [hlen, hpre, List.take_left]

theorem map_toLower_natRepr (n : Nat) :
    (natRepr n).map Char.toLower = natRepr n :=
  pyLowerL_natRepr n

theorem dedupCand_injective (candName sep : String) :
    ∀ m n, dedupCand candName (realStem candName) sep (allSuffixes candName) m =
      dedupCand candName (realStem candName) sep (allSuffixes candName) n →
      m = n := by
  have hlen : (realStem candName).data.length + (allSuffixes candName).data.length =
      candName.data.length := by
    have := congrArg List.length (realStem_append_allSuffixes candName)
    simpa using this
  have hzero : ∀ k, dedupCand candName (realStem candName) sep (allSuffixes candName)
      (k + 1) ≠ pyLowerS candName := by
    intro k h
    have hd := congrArg (fun s => s.data.length) h
    have hrep : 0 < (natRepr (k + 1)).length :=
      List.length_pos.mpr (natRepr_ne_nil (k + 1))
    simp only [dedupCand, Nat.succ_ne_zero, if_false, pyLowerS, pyLowerL,
      List.length_map, List.length_append] at hd
    omega
  intro m n h
  match m, n with
  | 0, 0 => rfl
  | 0, k + 1 =>
    exact absurd h.symm (by simpa [dedupCand] using hzero k)
  | k + 1, 0 =>
    exact absurd h (by simpa [dedupCand] using hzero k)
  | k + 1, j + 1 =>
    simp only [dedupCand, Nat.succ_ne_zero, if_false, pyLowerS, pyLowerL,
      List.map_append, map_toLower_natRepr] at h
    have hd : (realStem candName).data.map Char.toLower ++
        sep.data.map Char.toLower ++ natRepr (k + 1) ++
        (allSuffixes candName).data.map Char.toLower =
        (realStem candName).data.map Char.toLower ++
        sep.data.map Char.toLower ++ natRepr (j + 1) ++
        (allSuffixes candName).data.map Char.toLower :=
      congrArg String.data h
    have h2 := List.append_cancel_right hd
    have h3 := List.append_cancel_left h2
    have h4 := natRepr_injective (k + 1) (j + 1) h3
    omega

theorem loopFind_not_mem (cands : Nat → String) (seen : List String) :
    ∀ (fuel start : Nat), (∃ k, k < fuel ∧ cands (start + k) ∉ seen) →
    cands (loopFind cands seen start fuel) ∉ seen := by
  intro fuel
  induction fuel with
  | zero =>
    intro start h
    obtain ⟨k, hk, _⟩ := h
    omega
  | succ f ih =>
    intro start h
    rw [loopFind]
    by_cases hmem : cands start ∈ seen
    · rw [if_pos hmem]
      apply ih (start + 1)
      obtain ⟨k, hk, hfresh⟩ := h
      match k, hk with
      | 0, _ => exact absurd hfresh (by simpa using hmem)
      | j + 1, hk =>
        refine ⟨j, by omega, ?_⟩
        have harg : start + 1 + j = start + (j + 1) := by omega
        rw [harg]
        exact hfresh
    · rw [if_neg hmem]
      exact hmem

theorem exists_fresh_cand (cands : Nat → String) (seen : List String)
    (hinj : ∀ m n, cands m = cands n → m = n) :
    ∃ k, k < seen.length + 1 ∧ cands (0 + k) ∉ seen := by
  by_contra hcon
  push_neg at hcon
  have hsub : (Finset.range (seen.length + 1)).image cands ⊆ seen.toFinset := by
    intro x hx
    simp only [Finset.mem_image, Finset.mem_range] at hx
    obtain ⟨k, hk, rfl⟩ := hx
    rw [List.mem_toFinset]
    simpa using hcon k hk
  have hcard : ((Finset.range (seen.length + 1)).image cands).card =
      seen.length + 1 := by
    rw [Finset.card_image_of_injective _ (fun a b => hinj a b)]
    exact Finset.card_range _
  have h1 := Finset.card_le_card hsub
  have h2 := List.toFinset_card_le seen
  omega

theorem dedupedName_fresh (rules : RulesM) (seen : List String) (candName : String) :
    pyLowerS (dedupedName rules seen candName).2 ∉ seen := by
  have hinj := dedupCand_injective candName rules.suffix_sep
  have hex := exists_fresh_cand
    (dedupCand candName (realStem candName) rules.suffix_sep (allSuffixes candName))
    seen hinj
  have hfresh := loopFind_not_mem
    (dedupCand candName (realStem candName) rules.suffix_sep (allSuffixes candName))
    seen (seen.length + 1) 0 hex
  simp only [dedupedName]
  by_cases hn : loopFind
      (dedupCand candName (realStem candName) rules.suffix_sep (allSuffixes candName))
      seen 0 (seen.length + 1) = 0
  · rw [if_pos hn]
    rw [hn] at hfresh
    simpa [dedupCand] using hfresh
  · rw [if_neg hn]
    have hshape : pyLowerS (⟨(realStem candName).data ++ rules.suffix_sep.data ++
        natRepr (loopFind (dedupCand candName (realStem candName) rules.suffix_sep
          (allSuffixes candName)) seen 0 (seen.length + 1)) ++
        (allSuffixes candName).data⟩ : String) =
        dedupCand candName (realStem candName) rules.suffix_sep (allSuffixes candName)
          (loopFind (dedupCand candName (realStem candName) rules.suffix_sep
            (allSuffixes candName)) seen 0 (seen.length + 1)) := by
      rw [dedupCand, if_neg hn]
    rw [hshape]
    exact hfresh

theorem final_name_eq_dedupedName (rules : RulesM) (seen : List String) (dst : PathM) :
    (if (dedupedName rules seen dst.name).1 = 0 then dst
     else withName dst (dedupedName rules seen dst.name).2).name =
    (dedupedName rules seen dst.name).2 := by
  by_cases h : (dedupedName rules seen dst.name).1 = 0
  · rw [if_pos h]
    simp only [dedupedName] at h ⊢
    rw [if_pos h]
  · rw [if_neg h]
    rfl

theorem dedupeGo_length (rules : RulesM) :
    ∀ (plan : List PlanItem) (seen : List String),
    (dedupeGo rules plan seen).length = plan.length := by
  intro plan
  induction plan with
  | nil => intro seen; rfl
  | cons it rest ih =>
    intro seen
    simp only [dedupeGo]
    by_cases hc : it.changed = true
    · rw [if_pos hc]
      simp only [List.length_cons, ih]
    · rw [if_neg hc]
      simp only [List.length_cons, ih]

theorem dedupeGo_out_not_mem (rules : RulesM) :
    ∀ (plan : List PlanItem) (seen : List String) (j : Nat) (b b2 : PlanItem),
    plan[j]? = some b → b.changed = true →
    (dedupeGo rules plan seen)[j]? = some b2 →
    pyLowerS b2.dst.name ∉ seen := by
  intro plan
  induction plan with
  | nil => intro seen j b b2 hb _ _; simp at hb
  | cons it rest ih =>
    intro seen j b b2 hb hbc hout
    simp only [dedupeGo] at hout
    by_cases hc : it.changed = true
    · rw [if_pos hc] at hout
      cases j with
      | zero =>
        simp only [List.getElem?_cons_zero, Option.some.injEq] at hout
        rw [← hout]
        show pyLowerS (if (dedupedName rules seen it.dst.name).1 = 0 then it.dst
          else withName it.dst (dedupedName rules seen it.dst.name).2).name ∉ seen
        rw [final_name_eq_dedupedName]
        exact dedupedName_fresh rules seen it.dst.name
      | succ j =>
        simp only [List.getElem?_cons_succ] at hout hb
        have hnot := ih _ j b b2 hb hbc hout
        intro hmem
        exact hnot (List.mem_cons_of_mem _ hmem)
    · rw [if_neg hc] at hout
      cases j with
      | zero =>
        simp only [List.getElem?_cons_zero, Option.some.injEq] at hb
        exact absurd (hb ▸ hbc) hc
      | succ j =>
        simp only [List.getElem?_cons_succ] at hout hb
        exact ih _ j b b2 hb hbc hout

theorem dedupeGo_pairwise (rules : RulesM) :
    ∀ (plan : List PlanItem) (seen : List String) (i j : Nat) (a b a2 b2 : PlanItem),
    i < j →
    plan[i]? = some a → plan[j]? = some b →
    a.changed = true → b.changed = true →
    (dedupeGo rules plan seen)[i]? = some a2 →
    (dedupeGo rules plan seen)[j]? = some b2 →
    pyLowerS a2.dst.name ≠ pyLowerS b2.dst.name := by
  intro plan
  induction plan with
  | nil => intro seen i j a b a2 b2 _ ha _ _ _ _ _; simp at ha
  | cons it rest ih =>
    intro seen i j a b a2 b2 hij ha hb hac hbc hai hbi
    simp only [dedupeGo] at hai hbi
    by_cases hc : it.changed = true
    · rw [if_pos hc] at hai hbi
      cases i with
      | zero =>
        cases j with
        | zero => omega
        | succ j2 =>
          simp only [List.getElem?_cons_zero, Option.some.injEq] at hai
          simp only [List.getElem?_cons_succ] at hbi hb
          have hnot := dedupeGo_out_not_mem rules rest _ j2 b b2 hb hbc hbi
          rw [← hai]
          intro heq
          apply hnot
          rw [← heq]
          exact List.mem_cons_self _ _
      | succ i2 =>
        cases j with
        | zero => omega
        | succ j2 =>
          simp only [List.getElem?_cons_succ] at hai hbi ha hb
          exact ih _ i2 j2 a b a2 b2 (by omega) ha hb hac hbc hai hbi
    · rw [if_neg hc] at hai hbi
      cases i with
      | zero =>
        simp only [List.getElem?_cons_zero, Option.some.injEq] at ha
        exact absurd (ha ▸ hac) hc
      | succ i2 =>
        cases j with
        | zero => omega
        | succ j2 =>
          simp only [List.getElem?_cons_succ] at hai hbi ha hb
          exact ih _ i2 j2 a b a2 b2 (by omega) ha hb hac hbc hai hbi


/-- C2 (amended): under the `suffix` policy, any two distinct plan items
that enter the resolver marked changed leave it with destination names
that differ case-insensitively — each changed item's final name is checked
against and added to the claimed set.  (Unchanged items are not claimed,
so they may still collide; see the counterexample.) -/
theorem dedupe_changed_inputs_distinct (rules : RulesM) (plan : List PlanItem)
    (hconf : rules.conflict = "suffix") (i j : Nat) (a b a2 b2 : PlanItem)
    (hij : i < j)
    (ha : plan[i]? = some a) (hb : plan[j]? = some b)
    (hac : a.changed = true) (hbc : b.changed = true)
    (ha2 : (dedupe plan rules)[i]? = some a2)
    (hb2 : (dedupe plan rules)[j]? = some b2) :
    pyLowerS a2.dst.name ≠ pyLowerS b2.dst.name := by
  unfold dedupe at ha2 hb2
  rw [if_pos hconf] at ha2 hb2
  exact dedupeGo_pairwise rules plan [] i j a b a2 b2 hij ha hb hac hbc ha2 hb2

theorem dedupe_changed_inputs_distinct_witness :
    (({ conflict := "suffix" } : RulesM).conflict = "suffix") ∧
    (0 : Nat) < 1 ∧
    ([⟨⟨"", "a.txt"⟩, ⟨"", "y.txt"⟩, true, "ok"⟩,
      ⟨⟨"", "b.txt"⟩, ⟨"", "y.txt"⟩, true, "ok"⟩] : List PlanItem)[0]? =
      some ⟨⟨"", "a.txt"⟩, ⟨"", "y.txt"⟩, true, "ok"⟩ ∧
    ([⟨⟨"", "a.txt"⟩, ⟨"", "y.txt"⟩, true, "ok"⟩,
      ⟨⟨"", "b.txt"⟩, ⟨"", "y.txt"⟩, true, "ok"⟩] : List PlanItem)[1]? =
      some ⟨⟨"", "b.txt"⟩, ⟨"", "y.txt"⟩, true, "ok"⟩ ∧
    (dedupe
      [⟨⟨"", "a.txt"⟩, ⟨"", "y.txt"⟩, true, "ok"⟩,
       ⟨⟨"", "b.txt"⟩, ⟨"", "y.txt"⟩, true, "ok"⟩]
      { conflict := "suffix" })[0]? =
      some ⟨⟨"", "a.txt"⟩, ⟨"", "y.txt"⟩, true, "ok"⟩ ∧
    (dedupe
      [⟨⟨"", "a.txt"⟩, ⟨"", "y.txt"⟩, true, "ok"⟩,
       ⟨⟨"", "b.txt"⟩, ⟨"", "y.txt"⟩, true, "ok"⟩]
      { conflict := "suffix" })[1]? =
      some ⟨⟨"", "b.txt"⟩, ⟨"", "y_1.txt"⟩, true, "dedup-suffix"⟩ ∧
    pyLowerS (⟨⟨"", "a.txt"⟩, ⟨"", "y.txt"⟩, true, "ok"⟩ : PlanItem).dst.name ≠
      pyLowerS (⟨⟨"", "b.txt"⟩, ⟨"", "y_1.txt"⟩, true, "dedup-suffix"⟩ : PlanItem).dst.name :=
  ⟨by decide, by decide, by decide, by decide, by decide, by decide,
   dedupe_changed_inputs_distinct { conflict := "suffix" }
     [⟨⟨"", "a.txt"⟩, ⟨"", "y.txt"⟩, true, "ok"⟩,
      ⟨⟨"", "b.txt"⟩, ⟨"", "y.txt"⟩, true, "ok"⟩]
     (by decide) 0 1
     ⟨⟨"", "a.txt"⟩, ⟨"", "y.txt"⟩, true, "ok"⟩
     ⟨⟨"", "b.txt"⟩, ⟨"", "y.txt"⟩, true, "ok"⟩
     ⟨⟨"", "a.txt"⟩, ⟨"", "y.txt"⟩, true, "ok"⟩
     ⟨⟨"", "b.txt"⟩, ⟨"", "y_1.txt"⟩, true, "dedup-suffix"⟩
     (by decide) (by decide) (by decide) (by decide) (by decide)
     (by decide) (by decide)⟩
